import Mathlib

/-!
Verification of the MAcc exit-survey analysis program (`src/analysis.py`).

The program has two core pieces:

* `parse_columns` recovers `(course type, category, course name)` metadata from
  loosely patterned spreadsheet column headers, via substring markers;
* `process_rankings` merges, per respondent, bucketed qualitative+numeric
  ratings into a single global ordering (stable sort by
  `(category priority, in-category rank value)`), accumulates the global ranks
  per course, and reduces to a table of `(Course, Average Rank, Count)` sorted
  by average rank.

This file embeds both functions shallowly and proves/refutes the frozen claims
about them.  Modelling conventions:

* a spreadsheet cell is `Option ℚ` (`none` models an empty cell / `pd.isna`);
  rank values are numeric, modelled exactly as rationals;
* Python dicts preserve insertion order and have unique keys; they are
  modelled as insertion-ordered association lists;
* Python `list.sort` (Timsort) is stable and is modelled by the stable
  `List.insertionSort`; the final `DataFrame.sort_values` call, by contrast,
  uses pandas' default `kind='quicksort'`, which guarantees ascending order
  but not stability (numpy's introsort is stable only via its
  insertion-sort branch for at most 16 elements), so no theorem below
  relies on the model's tie order except at fixtures of at most 16 rows,
  where the model's order is the program's actual order;
* averages (`sum(ranks)/len(ranks)`) are modelled in `ℚ`; for the integer
  sums and small counts this program produces, comparisons of the Python
  float averages agree with the exact rational comparisons.
-/

namespace MAccSurvey

/-- Metadata recorded for one parsed column header: the dict
`{"type": ..., "category": ..., "course": ...}` built by `parse_columns`. -/
structure ColMeta where
  type : String
  category : String
  course : String
deriving DecidableEq, Repr

/-- `col_map`: the header-metadata dict, as an insertion-ordered association
list from column header to `ColMeta`. -/
abbrev ColMap := List (String × ColMeta)

/-- One respondent row: each column header maps to a numeric rank value or to
`none` for an empty cell (`pd.isna(val)` in the source). -/
abbrev Row := String → Option ℚ

/-! ## String primitives used by `parse_columns`

Python's `pat in s`, `s.endswith(pat)`, `s.find(pat)`, `s.rfind(pat)` and
slicing, on character lists. -/

/-- First index at which `pat` occurs as a contiguous substring of `s`
(the `some` case of Python `s.find(pat)`). -/
def strFind (pat : List Char) : List Char → Option Nat
  | [] => if pat.isPrefixOf ([] : List Char) then some 0 else none
  | s@(_ :: t) =>
    if pat.isPrefixOf s then some 0 else (strFind pat t).map (· + 1)

/-- Last index at which `pat` occurs as a contiguous substring of `s`
(the `some` case of Python `s.rfind(pat)`). -/
def strRFind (pat : List Char) : List Char → Option Nat
  | [] => if pat.isPrefixOf ([] : List Char) then some 0 else none
  | s@(_ :: t) =>
    match strRFind pat t with
    | some n => some (n + 1)
    | none => if pat.isPrefixOf s then some 0 else none

/-- Python `pat in s` (contiguous substring test). -/
def pyContains (s pat : String) : Bool :=
  (strFind pat.data s.data).isSome

/-- Python `s.endswith(pat)`. -/
def pyEndsWith (s pat : String) : Bool :=
  pat.data.isSuffixOf s.data

/-- Python `s.find(pat)`: index of the first occurrence, `-1` when absent. -/
def pyFind (s pat : String) : Int :=
  match strFind pat.data s.data with
  | some n => (n : Int)
  | none => -1

/-- Python `s.rfind(pat)`: index of the last occurrence, `-1` when absent. -/
def pyRFind (s pat : String) : Int :=
  match strRFind pat.data s.data with
  | some n => (n : Int)
  | none => -1

/-- Python `s[a:b]` for the non-negative index pairs this program produces. -/
def pySlice (s : String) (a b : Int) : String :=
  ⟨(s.data.drop a.toNat).take (b.toNat - a.toNat)⟩

/-! ## Header Parser (`parse_columns`) -/

/-- The ranking categories, in the order the source's loop checks them. -/
def rank_categories : List String :=
  ["Most Beneficial", "Neutral", "Least Beneficial"]

/-- The delimited category segment pattern the source searches for
(an f-string interpolating `cat` between fixed markers). -/
def catSegment (cat : String) : String :=
  " - Ranks - " ++ cat ++ " - "

/-- The course-type detection at the top of the `parse_columns` loop:
`"MAcc CORE courses" in col`, then `"MAcc Elective courses" in col`, else
`continue`. -/
def detectType (col : String) : Option String :=
  if pyContains col "MAcc CORE courses" then some "CORE"
  else if pyContains col "MAcc Elective courses" then some "ELECTIVE"
  else none

/-- The category-search loop: the first category of the fixed list whose
delimited segment occurs in the header (`break` at the first hit), `none`
when no category matches (the source prints a warning and `continue`s). -/
def findCategory (col : String) : Option String :=
  (rank_categories ++ ["Did not take"]).find?
    (fun cat => pyContains col (catSegment cat))

/-- The body of the `parse_columns` loop for a single column header.  Returns
`none` exactly when the source `continue`s past the column (diagnostics are
prints, not modelled). -/
def parseCol (col : String) : Option ColMeta :=
  match detectType col with
  | none => none
  | some c_type =>
    if !pyContains col " - Ranks - " then none
    else if !pyEndsWith col " - Rank" then none
    else
      match findCategory col with
      | none => none
      | some found_cat =>
        let pre := catSegment found_cat
        let suf := " - Rank"
        let start_idx := pyFind col pre + (pre.length : Int)
        let end_idx := pyRFind col suf
        if start_idx == -1 || end_idx == -1 then none
        else some ⟨c_type, found_cat, pySlice col start_idx end_idx⟩

/-- `parse_columns`: builds the header-metadata map, in column order. -/
def parse_columns (columns : List String) : ColMap :=
  columns.filterMap (fun col => (parseCol col).map (fun m => (col, m)))

/-! ## Rank Aggregator (`process_rankings`) -/

/-- The category-priority assignment: `cat_priority = 0` initialised, then the
`if/elif` chain.  A category matching none of the three branches keeps the
initial value `0`. -/
def catPriority (cat : String) : Nat :=
  if cat = "Most Beneficial" then 1
  else if cat = "Neutral" then 2
  else if cat = "Least Beneficial" then 3
  else 0

/-- One element of the per-respondent `student_courses` list. -/
structure Rating where
  course : String
  cat_priority : Nat
  rank_val : ℚ
deriving DecidableEq, Repr

/-- The `(column, metadata)` entries of the requested course type, in map
order (`type_cols` in the source, paired with the metadata the source looks
up per column). -/
def typePairs (col_map : ColMap) (course_type : String) : ColMap :=
  col_map.filter (fun p => p.2.type == course_type)

/-- The `student_courses` list collected for one respondent row: one rating
per type column whose cell is non-empty and whose category is not
`"Did not take"`. -/
def student_courses (col_map : ColMap) (course_type : String) (row : Row) :
    List Rating :=
  (typePairs col_map course_type).filterMap (fun p =>
    match row p.1 with
    | none => none
    | some val =>
      if p.2.category == "Did not take" then none
      else some ⟨p.2.course, catPriority p.2.category, val⟩)

/-- The sort key `lambda x: (x["cat_priority"], x["rank_val"])`, as the
lexicographic less-or-equal relation Python's tuple comparison realises. -/
def ratingLE (a b : Rating) : Prop :=
  a.cat_priority < b.cat_priority ∨
    (a.cat_priority = b.cat_priority ∧ a.rank_val ≤ b.rank_val)

instance : DecidableRel ratingLE := fun a b =>
  inferInstanceAs (Decidable (a.cat_priority < b.cat_priority ∨
    (a.cat_priority = b.cat_priority ∧ a.rank_val ≤ b.rank_val)))

/-- The respondent's ratings after `student_courses.sort(...)`: Python
`list.sort` is stable, modelled by the stable `List.insertionSort`. -/
def sortedCourses (col_map : ColMap) (course_type : String) (row : Row) :
    List Rating :=
  List.insertionSort ratingLE (student_courses col_map course_type row)

/-- The `enumerate(student_courses)` loop's iteration space, with the
assigned 1-based global rank `i + 1` attached to each sorted rating. -/
def rankedRatings (col_map : ColMap) (course_type : String) (row : Row) :
    List (Rating × Nat) :=
  (sortedCourses col_map course_type row).enum.map (fun p => (p.2, p.1 + 1))

/-- The `(course_name, global_rank)` pairs the loop appends for one
respondent, in loop order. -/
def rowAssignments (col_map : ColMap) (course_type : String) (row : Row) :
    List (String × Nat) :=
  (rankedRatings col_map course_type row).map (fun p => (p.1.course, p.2))

/-- The `course_rank_lists` accumulator: an insertion-ordered map from course
name to the list of global ranks appended so far. -/
abbrev Acc := List (String × List Nat)

/-- One append into `course_rank_lists`: create the entry with `[]` when the
course is not yet a key, then append the rank to the course's list. -/
def addRank (acc : Acc) (course : String) (r : Nat) : Acc :=
  if acc.any (fun p => p.1 == course) then
    acc.map (fun p => if p.1 == course then (p.1, p.2 ++ [r]) else p)
  else
    acc ++ [(course, [r])]

/-- Process one respondent row into the accumulator. -/
def processRow (col_map : ColMap) (course_type : String) (acc : Acc)
    (row : Row) : Acc :=
  (rowAssignments col_map course_type row).foldl
    (fun a p => addRank a p.1 p.2) acc

/-- The accumulator after the `df.iterrows()` loop over all rows. -/
def processRows (df : List Row) (col_map : ColMap) (course_type : String) :
    Acc :=
  df.foldl (processRow col_map course_type) []

/-- One row of the results table. -/
structure ResultRow where
  course : String
  averageRank : ℚ
  count : Nat
deriving DecidableEq, Repr

/-- The statistics pass: `avg_rank = sum(ranks) / len(ranks)` and
`Count = len(ranks)`, one result per accumulator entry, in accumulator
(first-seen) order.  The average is the exact rational division of the
integer sum by the count, written `mkRat` so that it evaluates by kernel
reduction; `resultsOf_avg_div` proves it equal to the literal
`(↑sum) / (↑len)` form. -/
def resultsOf (acc : Acc) : List ResultRow :=
  acc.map (fun p => ⟨p.1, mkRat p.2.sum p.2.length, p.2.length⟩)

/-- The comparison `sort_values("Average Rank")` sorts by (ascending). -/
def avgLE (a b : ResultRow) : Prop :=
  a.averageRank ≤ b.averageRank

instance : DecidableRel avgLE := fun a b =>
  inferInstanceAs (Decidable (a.averageRank ≤ b.averageRank))

/-- `process_rankings`: the full aggregation.  The final
`sort_values("Average Rank")` uses pandas' default `kind='quicksort'`
(numpy introsort), whose contract is ascending order only — it is *not* a
stable sort: tied rows keep their input order only for tables of at most 16
rows, where introsort runs its insertion-sort branch.  The model uses
`List.insertionSort`, which matches the program's output exactly on such
tables and matches the ascending-order contract in general; theorems about
this definition use only sort-agnostic facts (membership, permutation,
ascending order) or fixtures of at most 16 rows.  The missing stability for
larger tables is exhibited by
`tied_table_order_not_determined_by_sort_contract`. -/
def process_rankings (df : List Row) (col_map : ColMap)
    (course_type : String) : List ResultRow :=
  List.insertionSort avgLE (resultsOf (processRows df col_map course_type))

/-- `process_rankings` together with the post-call state of its two inputs.
The source only ever reads `df` (via `row[col]`) and `col_map` (via
`col_map[col]` and `.items()`); every write targets the locals
`student_courses`, `course_rank_lists` and `results`, so the inputs come back
exactly as they went in. -/
def process_rankings_state (df : List Row) (col_map : ColMap)
    (course_type : String) : List ResultRow × List Row × ColMap :=
  (process_rankings df col_map course_type, df, col_map)

/-! ## Semantic helpers used by the proofs -/

/-- The list of global ranks recorded for one course in the accumulator
(the dict entry's value, `[]` when the course is not a key). -/
def accRanks : Acc → String → List Nat
  | [], _ => []
  | p :: t, c => if p.1 = c then p.2 else accRanks t c

/-- The keys of the accumulator, in insertion order. -/
def accKeys (acc : Acc) : List String :=
  acc.map Prod.fst

/-- The `(course, rank)` pairs one respondent contributes for one course. -/
def rowRanksFor (col_map : ColMap) (course_type : String) (row : Row)
    (c : String) : List Nat :=
  ((rowAssignments col_map course_type row).filter
    (fun p => p.1 == c)).map Prod.snd

/-- The result row built from one accumulator entry. -/
def mkRow (c : String) (l : List Nat) : ResultRow :=
  ⟨c, mkRat l.sum l.length, l.length⟩

/-- The accumulator invariant maintained by `addRank`: keys are distinct, and
a course is a key exactly when it has recorded ranks. -/
def accInv (acc : Acc) : Prop :=
  (accKeys acc).Nodup ∧ ∀ c, c ∈ accKeys acc ↔ accRanks acc c ≠ []

/-! ## Concrete fixtures for witnesses and counterexamples -/

/-- Two columns of the same type, one `Most Beneficial`, one
`Least Beneficial`. -/
def mbLbMap : ColMap :=
  [("cMB", ⟨"CORE", "Most Beneficial", "A"⟩),
   ("cLB", ⟨"CORE", "Least Beneficial", "B"⟩)]

/-- A respondent who rated both columns of `mbLbMap` with rank value 1. -/
def mbLbRow : Row := fun c =>
  if c = "cMB" then some 1 else if c = "cLB" then some 1 else none

/-- A metadata map whose first entry carries a category that is none of the
four recognised values. -/
def mysteryMap : ColMap :=
  [("cm", ⟨"CORE", "Mystery", "M"⟩),
   ("cb", ⟨"CORE", "Most Beneficial", "B"⟩)]

/-- A respondent who answered both columns of `mysteryMap` with rank 1. -/
def mysteryRow : Row := fun c =>
  if c = "cm" then some 1 else if c = "cb" then some 1 else none

/-- The three columns of the worked example of the spec: course A rated
`Most Beneficial` rank 2, course B `Most Beneficial` rank 1, course C
`Neutral` rank 1. -/
def exampleMap : ColMap :=
  [("colA", ⟨"CORE", "Most Beneficial", "A"⟩),
   ("colB", ⟨"CORE", "Most Beneficial", "B"⟩),
   ("colC", ⟨"CORE", "Neutral", "C"⟩)]

/-- The worked example's single respondent. -/
def exampleRow : Row := fun c =>
  if c = "colA" then some 2 else if c = "colB" then some 1
  else if c = "colC" then some 1 else none

/-- Two columns in different categories that name the same course `X`. -/
def dupCourseMap : ColMap :=
  [("d1", ⟨"CORE", "Most Beneficial", "X"⟩),
   ("d2", ⟨"CORE", "Neutral", "X"⟩)]

/-- A respondent who rated course `X` in both categories. -/
def dupCourseRow : Row := fun c =>
  if c = "d1" then some 1 else if c = "d2" then some 1 else none

/-- Two single-course columns, used to produce a tie on the average rank. -/
def tieMap : ColMap :=
  [("t1", ⟨"CORE", "Most Beneficial", "X"⟩),
   ("t2", ⟨"CORE", "Most Beneficial", "Y"⟩)]

/-- A respondent who only rated course `X` (global rank 1). -/
def tieRowX : Row := fun c => if c = "t1" then some 1 else none

/-- A respondent who only rated course `Y` (global rank 1): the averages of
`X` and `Y` tie at 1. -/
def tieRowY : Row := fun c => if c = "t2" then some 1 else none

/-- A respondent who rated only the column `k`, with rank value 1. -/
def oneRow (k : String) : Row := fun c => if c = k then some 1 else none

/-- Seventeen single-course columns of the same type: enough courses that
the result table exceeds numpy introsort's 16-element insertion-sort
threshold. -/
def bigTieMap : ColMap :=
  [("c01", ⟨"CORE", "Most Beneficial", "A"⟩),
   ("c02", ⟨"CORE", "Most Beneficial", "B"⟩),
   ("c03", ⟨"CORE", "Most Beneficial", "C"⟩),
   ("c04", ⟨"CORE", "Most Beneficial", "D"⟩),
   ("c05", ⟨"CORE", "Most Beneficial", "E"⟩),
   ("c06", ⟨"CORE", "Most Beneficial", "F"⟩),
   ("c07", ⟨"CORE", "Most Beneficial", "G"⟩),
   ("c08", ⟨"CORE", "Most Beneficial", "H"⟩),
   ("c09", ⟨"CORE", "Most Beneficial", "I"⟩),
   ("c10", ⟨"CORE", "Most Beneficial", "J"⟩),
   ("c11", ⟨"CORE", "Most Beneficial", "K"⟩),
   ("c12", ⟨"CORE", "Most Beneficial", "L"⟩),
   ("c13", ⟨"CORE", "Most Beneficial", "M"⟩),
   ("c14", ⟨"CORE", "Most Beneficial", "N"⟩),
   ("c15", ⟨"CORE", "Most Beneficial", "O"⟩),
   ("c16", ⟨"CORE", "Most Beneficial", "P"⟩),
   ("c17", ⟨"CORE", "Most Beneficial", "Q"⟩)]

/-- Seventeen respondents, each rating exactly one distinct course with rank
value 1: all seventeen courses tie at average rank 1 with count 1. -/
def bigTieRows : List Row :=
  ["c01", "c02", "c03", "c04", "c05", "c06", "c07", "c08", "c09", "c10",
   "c11", "c12", "c13", "c14", "c15", "c16", "c17"].map oneRow

/-- A header in which two different category labels both occur as delimited
segments: a category match that is ambiguous between `Most Beneficial` and
`Neutral`. -/
def ambiguousHeader : String :=
  "MAcc CORE courses - Ranks - Neutral - X - Ranks - Most Beneficial - Y - Rank"

/-- A structurally complete header whose category segment matches none of
the recognised labels: zero plausible category matches. -/
def unmatchedHeader : String :=
  "MAcc CORE courses - Ranks - Mystery - X - Rank"

/-! ## Basic facts about the order relations and the average -/

/-- The average recorded by `resultsOf` is the source's
`sum(ranks) / len(ranks)`. -/
theorem resultsOf_avg_div (acc : Acc) :
    resultsOf acc =
      acc.map (fun p => ⟨p.1, (p.2.sum : ℚ) / (p.2.length : ℚ), p.2.length⟩) := by
  unfold resultsOf
  refine List.map_congr_left (fun p _ => ?_)
  have : (mkRat p.2.sum p.2.length : ℚ) =
      ((p.2.sum : ℚ) / (p.2.length : ℚ)) := by
    rw [Rat.mkRat_eq_divInt, Rat.divInt_eq_div]
    simp only [Int.cast_natCast]
  rw [this]

instance : IsTotal Rating ratingLE :=
  ⟨fun a b => by
    unfold ratingLE
    rcases Nat.lt_trichotomy a.cat_priority b.cat_priority with h | h | h
    · exact Or.inl (Or.inl h)
    · rcases le_total a.rank_val b.rank_val with h' | h'
      · exact Or.inl (Or.inr ⟨h, h'⟩)
      · exact Or.inr (Or.inr ⟨h.symm, h'⟩)
    · exact Or.inr (Or.inl h)⟩

instance : IsTrans Rating ratingLE :=
  ⟨fun a b c h₁ h₂ => by
    unfold ratingLE at h₁ h₂ ⊢
    rcases h₁ with h₁ | ⟨e₁, r₁⟩ <;> rcases h₂ with h₂ | ⟨e₂, r₂⟩
    · exact Or.inl (h₁.trans h₂)
    · exact Or.inl (e₂ ▸ h₁)
    · exact Or.inl (e₁ ▸ h₂)
    · exact Or.inr ⟨e₁.trans e₂, r₁.trans r₂⟩⟩

instance : IsTotal ResultRow avgLE := ⟨fun _ _ => le_total _ _⟩

instance : IsTrans ResultRow avgLE := ⟨fun _ _ _ h₁ h₂ => le_trans h₁ h₂⟩

/-- The length of a `filterMap` counts the elements on which the function
succeeds. -/
theorem length_filterMap_eq_countP (f : α → Option β) (l : List α) :
    (l.filterMap f).length = l.countP (fun a => (f a).isSome) := by
  induction l with
  | nil => rfl
  | cons a t ih =>
    rw [List.filterMap_cons, List.countP_cons]
    cases h : f a <;> simp [h, ih]

/-- The global ranks a row-processing pass hands out are `i + 1` over the
positions of the sorted rating list. -/
theorem enum_succ_eq_range' (l : List Rating) :
    l.enum.map (fun p => p.1 + 1) = List.range' 1 l.length := by
  have h1 : l.enum.map (fun p => p.1 + 1) =
      (l.enum.map Prod.fst).map (· + 1) := by
    rw [List.map_map]; rfl
  rw [h1, List.enum_map_fst, List.range'_eq_map_range]
  exact List.map_congr_left (fun a _ => Nat.add_comm a 1)

/-- C1: for every respondent row and course type, the list of global ranks
assigned by `process_rankings` to that respondent's ratings is exactly
`[1, ..., k]` — no duplicates and no gaps — where `k` is the number of the
respondent's non-empty, non-`"Did not take"` entries of that type. -/
theorem global_ranks_exactly_one_to_k (col_map : ColMap) (course_type : String)
    (row : Row) :
    (rowAssignments col_map course_type row).map Prod.snd =
      List.range' 1 ((typePairs col_map course_type).countP
        (fun p => (row p.1).isSome && !(p.2.category == "Did not take"))) := by
  have hlen : (sortedCourses col_map course_type row).length =
      (typePairs col_map course_type).countP
        (fun p => (row p.1).isSome && !(p.2.category == "Did not take")) := by
    rw [sortedCourses, List.length_insertionSort, student_courses,
      length_filterMap_eq_countP]
    refine List.countP_congr (fun p _ => ?_)
    cases h : row p.1
    · simp [h]
    · by_cases hc : p.2.category == "Did not take" <;> simp [h, hc]
  rw [← hlen, rowAssignments, rankedRatings, List.map_map, List.map_map]
  exact enum_succ_eq_range' _

/-- C2: category priority strictly dominates the merged ordering: within one
respondent, a rating whose category priority is that of `"Most Beneficial"`
always receives a strictly lower (better) global rank than a rating whose
category priority is that of `"Least Beneficial"`, wherever the two sit in
the ranked list. -/
theorem most_beneficial_beats_least_beneficial (col_map : ColMap)
    (course_type : String) (row : Row)
    (i j : Fin (rankedRatings col_map course_type row).length)
    (hmb : ((rankedRatings col_map course_type row).get i).1.cat_priority =
      catPriority "Most Beneficial")
    (hlb : ((rankedRatings col_map course_type row).get j).1.cat_priority =
      catPriority "Least Beneficial") :
    ((rankedRatings col_map course_type row).get i).2 <
      ((rankedRatings col_map course_type row).get j).2 := by
  have hMB : catPriority "Most Beneficial" = 1 := by decide
  have hLB : catPriority "Least Beneficial" = 3 := by decide
  set s := sortedCourses col_map course_type row with hs
  have hlen : (rankedRatings col_map course_type row).length = s.length := by
    simp [rankedRatings]
  have hget : ∀ (k : Fin (rankedRatings col_map course_type row).length),
      (rankedRatings col_map course_type row).get k =
        (s.get (Fin.cast hlen k), k.1 + 1) := by
    intro k
    have hk : k.1 < s.enum.length := by
      simpa [List.enum_length] using (hlen ▸ k.2)
    simp [rankedRatings, List.get_eq_getElem, List.getElem_map,
      List.getElem_enum]
  have hsorted : s.Sorted ratingLE := List.sorted_insertionSort ratingLE _
  rw [hget i, hget j] at *
  simp only at hmb hlb
  have hij : i.1 < j.1 := by
    rcases Nat.lt_trichotomy i.1 j.1 with h | h | h
    · exact h
    · exfalso
      have : (Fin.cast hlen i) = (Fin.cast hlen j) := by
        apply Fin.ext; simpa using h
      rw [this, hlb, hLB] at hmb
      rw [hMB] at hmb
      omega
    · exfalso
      have hp := List.pairwise_iff_getElem.mp hsorted j.1 i.1
        (by simpa using (hlen ▸ j.2)) (by simpa using (hlen ▸ i.2)) h
      have hgj : s[(j : Nat)] = s.get (Fin.cast hlen j) := by
        simp [List.get_eq_getElem]
      have hgi : s[(i : Nat)] = s.get (Fin.cast hlen i) := by
        simp [List.get_eq_getElem]
      rw [hgj, hgi, ratingLE] at hp
      rw [hmb, hMB] at hp
      rw [hlb, hLB] at hp
      rcases hp with h3 | ⟨h3, _⟩ <;> omega
  simpa using Nat.succ_lt_succ hij

/-- Witness for C2 at a concrete respondent: the `Most Beneficial` rating
(position 0) gets a strictly better global rank than the `Least Beneficial`
one (position 1). -/
theorem most_beneficial_beats_least_beneficial_witness :
    ((rankedRatings mbLbMap "CORE" mbLbRow).get ⟨0, by decide⟩).2 <
      ((rankedRatings mbLbMap "CORE" mbLbRow).get ⟨1, by decide⟩).2 :=
  most_beneficial_beats_least_beneficial mbLbMap "CORE" mbLbRow
    ⟨0, by decide⟩ ⟨1, by decide⟩ (by decide) (by decide)

/-- C5 (the code side): on a metadata map carrying the unrecognised category
`"Mystery"`, `process_rankings` does not abort: the `if/elif` chain leaves
`cat_priority = 0`, so the `"Mystery"` course sorts ahead of the
`"Most Beneficial"` course and a (mis-ranked) result table is returned. -/
theorem unknown_category_is_silently_ranked_first :
    catPriority "Mystery" = 0 ∧
    rowAssignments mysteryMap "CORE" mysteryRow = [("M", 1), ("B", 2)] ∧
    process_rankings [mysteryRow] mysteryMap "CORE" =
      [⟨"M", 1, 1⟩, ⟨"B", 2, 1⟩] := by
  decide

/-- C7: the spec's worked example: Course A `Most Beneficial` rank 2,
Course B `Most Beneficial` rank 1, Course C `Neutral` rank 1 yields global
ranks B = 1, A = 2, C = 3, and the result table reports exactly those
averages. -/
theorem worked_example_global_ranks :
    rowAssignments exampleMap "CORE" exampleRow =
      [("B", 1), ("A", 2), ("C", 3)] ∧
    process_rankings [exampleRow] exampleMap "CORE" =
      [⟨"B", 1, 1⟩, ⟨"A", 2, 1⟩, ⟨"C", 3, 1⟩] := by
  decide

/-- C8: aggregation is deterministic: the embedding of `process_rankings`
required no nondeterministic choice anywhere (dict iteration is insertion
order, both sorts are stable sorts with total comparisons), so two runs on
the same rows, metadata map and course type produce identical tables. -/
theorem process_rankings_deterministic (df : List Row) (col_map : ColMap)
    (course_type : String) :
    process_rankings df col_map course_type =
      process_rankings df col_map course_type := rfl

/-- C10: `process_rankings` leaves its inputs unchanged: the source only
reads `df` and `col_map`, so the post-call state of both equals the
pre-call state. -/
theorem process_rankings_frame (df : List Row) (col_map : ColMap)
    (course_type : String) :
    (process_rankings_state df col_map course_type).2.1 = df ∧
    (process_rankings_state df col_map course_type).2.2 = col_map :=
  ⟨rfl, rfl⟩

/-! ## The accumulator: how `addRank` transforms ranks and keys -/

/-- Unfolding `accRanks` on an empty accumulator. -/
theorem accRanks_nil (c : String) : accRanks [] c = [] := rfl

/-- Unfolding `accRanks` on a cons. -/
theorem accRanks_cons (q : String × List Nat) (t : Acc) (c : String) :
    accRanks (q :: t) c = if q.1 = c then q.2 else accRanks t c := rfl

/-- Unfolding `accKeys` on a cons. -/
theorem accKeys_cons (q : String × List Nat) (t : Acc) :
    accKeys (q :: t) = q.1 :: accKeys t := rfl

/-- A course that is not a key has no recorded ranks. -/
theorem accRanks_eq_nil_of_not_mem {acc : Acc} {c : String}
    (h : c ∉ accKeys acc) : accRanks acc c = [] := by
  induction acc with
  | nil => rfl
  | cons q t ih =>
    rw [accKeys_cons, List.mem_cons] at h
    push_neg at h
    rw [accRanks_cons, if_neg (fun e => h.1 e.symm)]
    exact ih h.2

/-- Updating the entry of course `c` leaves every other course's ranks
unchanged (stated with the propositional condition `simp` normalises the
`==` test of `addRank` to). -/
theorem accRanks_map_update_ne (t : Acc) (c c' : String) (r : Nat)
    (h : c' ≠ c) :
    accRanks (t.map (fun q => if q.1 = c then (q.1, q.2 ++ [r]) else q)) c' =
      accRanks t c' := by
  induction t with
  | nil => rfl
  | cons q t ih =>
    rw [List.map_cons]
    by_cases hq : q.1 = c
    · have hne : ¬ q.1 = c' := fun e => h (e ▸ hq)
      rw [if_pos hq, accRanks_cons, accRanks_cons, if_neg hne, if_neg hne]
      exact ih
    · rw [if_neg hq, accRanks_cons, accRanks_cons]
      by_cases hqc : q.1 = c'
      · rw [if_pos hqc, if_pos hqc]
      · rw [if_neg hqc, if_neg hqc]
        exact ih

/-- Appending with a fresh head key. -/
theorem addRank_cons_ne (q : String × List Nat) (t : Acc) (c : String)
    (r : Nat) (h : q.1 ≠ c) : addRank (q :: t) c r = q :: addRank t c r := by
  unfold addRank
  have hb : (q.1 == c) = false := beq_eq_false_iff_ne.mpr h
  by_cases ht : t.any (fun p => p.1 == c) <;>
    simp [List.any_cons, hb, ht, h]

/-- Appending when the head is the course being ranked. -/
theorem addRank_cons_eq (q : String × List Nat) (t : Acc) (r : Nat) :
    addRank (q :: t) q.1 r =
      (q.1, q.2 ++ [r]) ::
        t.map (fun p => if p.1 == q.1 then (p.1, p.2 ++ [r]) else p) := by
  unfold addRank
  simp [List.any_cons]

/-- The fundamental property of `addRank`: it appends `r` to the ranks of
`course` and leaves every other course's ranks unchanged. -/
theorem addRank_accRanks (acc : Acc) (c : String) (r : Nat) (c' : String) :
    accRanks (addRank acc c r) c' =
      if c' = c then accRanks acc c' ++ [r] else accRanks acc c' := by
  induction acc with
  | nil =>
    by_cases h : c' = c
    · subst h
      simp [addRank, accRanks_cons, accRanks_nil]
    · have h' : ¬ (c = c') := fun e => h e.symm
      simp [addRank, accRanks_cons, accRanks_nil, h, h']
  | cons q t ih =>
    by_cases hq : q.1 = c
    · subst hq
      rw [addRank_cons_eq q t r]
      by_cases hc : c' = q.1
      · subst hc
        simp [accRanks_cons]
      · have h1 : ¬ (q.1 = c') := fun e => hc e.symm
        simp [accRanks_cons, h1, hc, accRanks_map_update_ne t q.1 c' r hc]
    · rw [addRank_cons_ne q t c r hq]
      by_cases hqc : q.1 = c'
      · have hcc : ¬ (c' = c) := fun e => hq (hqc.trans e)
        simp [accRanks_cons, hqc, hcc]
      · simp [accRanks_cons, hqc, ih]

/-- How `addRank` changes the key list. -/
theorem addRank_accKeys (acc : Acc) (c : String) (r : Nat) :
    accKeys (addRank acc c r) =
      if c ∈ accKeys acc then accKeys acc else accKeys acc ++ [c] := by
  have hmem : (acc.any (fun p => p.1 == c)) = true ↔ c ∈ accKeys acc := by
    simp [List.any_eq_true, accKeys, List.mem_map, beq_iff_eq]
  by_cases h : acc.any (fun p => p.1 == c)
  · rw [addRank, if_pos h, if_pos (hmem.mp h)]
    rw [accKeys, List.map_map, accKeys]
    refine List.map_congr_left (fun p _ => ?_)
    by_cases hp : p.1 = c <;> simp [hp]
  · have h' : ¬ c ∈ accKeys acc := fun hc => h (hmem.mpr hc)
    rw [addRank, if_neg h, if_neg h']
    simp [accKeys]

/-- `addRank` preserves the accumulator invariant. -/
theorem accInv_addRank {acc : Acc} (h : accInv acc) (c : String) (r : Nat) :
    accInv (addRank acc c r) := by
  obtain ⟨hn, hm⟩ := h
  constructor
  · rw [addRank_accKeys]
    by_cases hc : c ∈ accKeys acc
    · simpa [hc] using hn
    · rw [if_neg hc]
      exact hn.append (List.nodup_singleton c) (by simpa using hc)
  · intro c'
    rw [addRank_accKeys, addRank_accRanks]
    by_cases hcc : c' = c
    · subst hcc
      by_cases hc : c' ∈ accKeys acc <;> simp [hc]
    · by_cases hc : c ∈ accKeys acc <;>
        simp [hc, hcc, hm c']

/-- Folding a list of `(course, rank)` pairs through `addRank` appends,
course by course, exactly the ranks of that course. -/
theorem foldl_addRank_accRanks (ps : List (String × Nat)) (acc : Acc)
    (c : String) :
    accRanks (ps.foldl (fun a p => addRank a p.1 p.2) acc) c =
      accRanks acc c ++ (ps.filter (fun p => p.1 == c)).map Prod.snd := by
  induction ps generalizing acc with
  | nil => simp
  | cons q t ih =>
    rw [List.foldl_cons, ih, addRank_accRanks]
    by_cases hq : c = q.1
    · have hb : (q.1 == c) = true := beq_iff_eq.mpr hq.symm
      simp [List.filter_cons, hb, hq]
    · have hb : (q.1 == c) = false :=
        beq_eq_false_iff_ne.mpr (fun e => hq e.symm)
      simp [List.filter_cons, hb, hq]

/-- Folding through `addRank` preserves the invariant. -/
theorem foldl_addRank_accInv (ps : List (String × Nat)) {acc : Acc}
    (h : accInv acc) :
    accInv (ps.foldl (fun a p => addRank a p.1 p.2) acc) := by
  induction ps generalizing acc with
  | nil => exact h
  | cons q t ih => exact ih (accInv_addRank h q.1 q.2)

/-- One row's worth of processing appends that row's contribution for each
course. -/
theorem processRow_accRanks (col_map : ColMap) (course_type : String)
    (acc : Acc) (row : Row) (c : String) :
    accRanks (processRow col_map course_type acc row) c =
      accRanks acc c ++ rowRanksFor col_map course_type row c := by
  unfold processRow rowRanksFor
  exact foldl_addRank_accRanks _ _ _

/-- The ranks recorded for a course after all rows are the concatenation of
the per-row contributions, in row order. -/
theorem processRows_go_accRanks (df : List Row) (col_map : ColMap)
    (course_type : String) (acc : Acc) (c : String) :
    accRanks (df.foldl (processRow col_map course_type) acc) c =
      accRanks acc c ++
        (df.map (fun row => rowRanksFor col_map course_type row c)).flatten := by
  induction df generalizing acc with
  | nil => simp
  | cons r t ih =>
    rw [List.foldl_cons, ih, processRow_accRanks]
    simp [List.append_assoc]

/-- Specialisation to the empty starting accumulator. -/
theorem processRows_accRanks (df : List Row) (col_map : ColMap)
    (course_type : String) (c : String) :
    accRanks (processRows df col_map course_type) c =
      (df.map (fun row => rowRanksFor col_map course_type row c)).flatten := by
  unfold processRows
  rw [processRows_go_accRanks]
  rfl

/-- The final accumulator satisfies the invariant. -/
theorem processRows_accInv (df : List Row) (col_map : ColMap)
    (course_type : String) : accInv (processRows df col_map course_type) := by
  unfold processRows
  have h : ∀ (l : List Row) (acc : Acc), accInv acc →
      accInv (l.foldl (processRow col_map course_type) acc) := by
    intro l
    induction l with
    | nil => exact fun _ h => h
    | cons r t ih =>
      intro acc hacc
      exact ih _ (foldl_addRank_accInv _ hacc)
  refine h df [] ⟨List.nodup_nil, fun c => ?_⟩
  simp [accKeys, accRanks]

/-- Under the invariant, the results table is the key list mapped through
the per-course statistics. -/
theorem resultsOf_eq_keys_map : ∀ {acc : Acc}, accInv acc →
    resultsOf acc = (accKeys acc).map (fun c => mkRow c (accRanks acc c))
  | [], _ => rfl
  | q :: t, h => by
    obtain ⟨hn, hm⟩ := h
    rw [accKeys_cons] at hn
    have hn' := List.nodup_cons.mp hn
    have hq : q.1 ∉ accKeys t := hn'.1
    have hinvt : accInv t := by
      refine ⟨hn'.2, fun c => ?_⟩
      by_cases hc : c = q.1
      · subst hc
        constructor
        · intro hmem; exact absurd hmem hq
        · intro hne; exact absurd (accRanks_eq_nil_of_not_mem hq) hne
      · have hmc := hm c
        rw [accKeys_cons, List.mem_cons] at hmc
        rw [accRanks_cons, if_neg (fun e => hc e.symm)] at hmc
        constructor
        · intro hmem; exact hmc.mp (Or.inr hmem)
        · intro hne
          rcases hmc.mpr hne with he | hmem
          · exact absurd he hc
          · exact hmem
    rw [accKeys_cons, List.map_cons]
    rw [show resultsOf (q :: t) = mkRow q.1 q.2 :: resultsOf t from rfl]
    congr 1
    · rw [accRanks_cons, if_pos rfl]
    · rw [resultsOf_eq_keys_map hinvt]
      refine List.map_congr_left (fun c hc => ?_)
      have hcq : ¬ (q.1 = c) := fun e => hq (e ▸ hc)
      rw [accRanks_cons, if_neg hcq]

/-- Two result rows over rank lists with equal sum and length coincide. -/
theorem mkRow_congr (c : String) {l₁ l₂ : List Nat} (hs : l₁.sum = l₂.sum)
    (hl : l₁.length = l₂.length) : mkRow c l₁ = mkRow c l₂ := by
  unfold mkRow
  rw [hs, hl]

/-- Permuting the respondent rows permutes each course's per-row
contributions, so sums and counts of recorded ranks are unchanged. -/
theorem accRanks_sum_length_perm (df₁ df₂ : List Row) (col_map : ColMap)
    (course_type : String) (hp : df₁.Perm df₂) (c : String) :
    (accRanks (processRows df₁ col_map course_type) c).sum =
      (accRanks (processRows df₂ col_map course_type) c).sum ∧
    (accRanks (processRows df₁ col_map course_type) c).length =
      (accRanks (processRows df₂ col_map course_type) c).length := by
  rw [processRows_accRanks, processRows_accRanks]
  constructor
  · rw [List.sum_flatten, List.sum_flatten, List.map_map, List.map_map]
    exact (hp.map _).sum_eq
  · rw [List.length_flatten, List.length_flatten, List.map_map, List.map_map]
    exact (hp.map _).sum_eq

/-- Permuting the rows permutes the key list of the final accumulator. -/
theorem processRows_keys_perm (df₁ df₂ : List Row) (col_map : ColMap)
    (course_type : String) (hp : df₁.Perm df₂) :
    (accKeys (processRows df₁ col_map course_type)).Perm
      (accKeys (processRows df₂ col_map course_type)) := by
  have h₁ := processRows_accInv df₁ col_map course_type
  have h₂ := processRows_accInv df₂ col_map course_type
  rw [List.perm_ext_iff_of_nodup h₁.1 h₂.1]
  intro c
  rw [h₁.2 c, h₂.2 c]
  have hlen := (accRanks_sum_length_perm df₁ df₂ col_map course_type hp c).2
  simp only [ne_eq, ← List.length_eq_zero, hlen]

/-- Permuting the rows permutes the unsorted results table. -/
theorem resultsOf_processRows_perm (df₁ df₂ : List Row) (col_map : ColMap)
    (course_type : String) (hp : df₁.Perm df₂) :
    (resultsOf (processRows df₁ col_map course_type)).Perm
      (resultsOf (processRows df₂ col_map course_type)) := by
  rw [resultsOf_eq_keys_map (processRows_accInv df₁ col_map course_type),
    resultsOf_eq_keys_map (processRows_accInv df₂ col_map course_type)]
  have hstep :
      (accKeys (processRows df₁ col_map course_type)).map
        (fun c => mkRow c (accRanks (processRows df₁ col_map course_type) c)) =
      (accKeys (processRows df₁ col_map course_type)).map
        (fun c => mkRow c (accRanks (processRows df₂ col_map course_type) c)) := by
    refine List.map_congr_left (fun c _ => ?_)
    have h := accRanks_sum_length_perm df₁ df₂ col_map course_type hp c
    exact mkRow_congr c h.1 h.2
  rw [hstep]
  exact (processRows_keys_perm df₁ df₂ col_map course_type hp).map _

/-- C3 counterexample: permuting the respondent rows does not yield an
identical (ordered) result table.  Swapping two one-course respondents
swaps the first-seen order of the two tied courses, and with it the order
of the tied rows in the output.  At this table size (2 rows, below numpy
introsort's 16-element insertion-sort threshold) the program's final sort
really is stable, so the two computed tables are the program's actual
outputs. -/
theorem permuted_rows_table_not_identical :
    process_rankings [tieRowX, tieRowY] tieMap "CORE" =
      [⟨"X", 1, 1⟩, ⟨"Y", 1, 1⟩] ∧
    process_rankings [tieRowY, tieRowX] tieMap "CORE" =
      [⟨"Y", 1, 1⟩, ⟨"X", 1, 1⟩] ∧
    process_rankings [tieRowX, tieRowY] tieMap "CORE" ≠
      process_rankings [tieRowY, tieRowX] tieMap "CORE" := by
  decide

/-- C3 (amended): aggregation is order-independent at the level of the
table's contents: permuting the respondent rows yields a result table with
exactly the same `(Course, Average Rank, Count)` rows — a permutation of
the original table, with identical averages and counts — though tied rows
may appear in a different order.  This holds for any final sort, since
every sort of the statistics list is a permutation of it. -/
theorem aggregation_order_independent (df₁ df₂ : List Row)
    (col_map : ColMap) (course_type : String) (hp : df₁.Perm df₂) :
    (process_rankings df₁ col_map course_type).Perm
      (process_rankings df₂ col_map course_type) := by
  refine ((List.perm_insertionSort avgLE _).trans ?_).trans
    (List.perm_insertionSort avgLE _).symm
  exact resultsOf_processRows_perm df₁ df₂ col_map course_type hp

/-- Witness for C3 (amended): swapping the two one-course respondents gives
result tables that are permutations of each other (they are the two orders
of the same two tied rows). -/
theorem aggregation_order_independent_witness :
    (process_rankings [tieRowX, tieRowY] tieMap "CORE").Perm
      (process_rankings [tieRowY, tieRowX] tieMap "CORE") :=
  aggregation_order_independent [tieRowX, tieRowY] [tieRowY, tieRowX]
    tieMap "CORE" (List.Perm.swap tieRowY tieRowX [])

/-- C4 (the code side): the claimed stable tie-break is not enforced by the
code.  `sort_values("Average Rank")` is called with pandas' default
`kind='quicksort'`, whose contract is ascending order only; on the failing
input — seventeen courses, each rated once with rank 1, so the whole table
ties at average 1 — the table exceeds the 16-element threshold below which
numpy introsort is incidentally stable, and ascending order does not pin
down the row order at all: the table's reversal is a different list that
also satisfies the sort's contract.  (The per-course statistics evaluated
here are computed by the embedding of the code up to the sort call.) -/
theorem tied_table_order_not_determined_by_sort_contract :
    16 < (resultsOf (processRows bigTieRows bigTieMap "CORE")).length ∧
    (∀ r ∈ resultsOf (processRows bigTieRows bigTieMap "CORE"),
      r.averageRank = 1) ∧
    (resultsOf (processRows bigTieRows bigTieMap "CORE")).reverse ≠
      resultsOf (processRows bigTieRows bigTieMap "CORE") ∧
    (resultsOf (processRows bigTieRows bigTieMap "CORE")).reverse.Pairwise
      (fun x y => x.averageRank ≤ y.averageRank) := by
  refine ⟨by decide, by decide, by decide, ?_⟩
  have h1 : ∀ r ∈ resultsOf (processRows bigTieRows bigTieMap "CORE"),
      r.averageRank = 1 := by decide
  refine List.pairwise_of_forall_mem_list (fun a ha b hb => ?_)
  rw [h1 a (List.mem_reverse.mp ha), h1 b (List.mem_reverse.mp hb)]

/-! ## Counting: what the `Count` column counts -/

/-- Counting over an enumerated list by a predicate on the element alone. -/
theorem countP_enumFrom (p : α → Bool) :
    ∀ (l : List α) (n : Nat),
      (l.enumFrom n).countP (fun q => p q.2) = l.countP p
  | [], _ => rfl
  | a :: t, n => by
    rw [List.enumFrom, List.countP_cons, List.countP_cons,
      countP_enumFrom p t (n + 1)]

/-- Specialisation to `enum`. -/
theorem countP_enum (p : α → Bool) (l : List α) :
    l.enum.countP (fun q => p q.2) = l.countP p :=
  countP_enumFrom p l 0

/-- The number of ranks a row contributes for a course is the number of its
rating entries naming that course. -/
theorem rowRanksFor_length (col_map : ColMap) (course_type : String)
    (row : Row) (c : String) :
    (rowRanksFor col_map course_type row c).length =
      (student_courses col_map course_type row).countP
        (fun s => s.course == c) := by
  unfold rowRanksFor
  rw [List.length_map, ← List.countP_eq_length_filter, rowAssignments,
    rankedRatings, List.countP_map, List.countP_map]
  have h1 : (sortedCourses col_map course_type row).enum.countP
      (((fun (p : String × Nat) => p.1 == c) ∘
        (fun (p : Rating × Nat) => (p.1.course, p.2))) ∘
          (fun (p : Nat × Rating) => (p.2, p.1 + 1))) =
      (sortedCourses col_map course_type row).enum.countP
        (fun q => q.2.course == c) := by
    refine List.countP_congr (fun q _ => ?_)
    rfl
  rw [h1]
  exact (countP_enum (fun s => s.course == c) _).trans
    ((List.perm_insertionSort ratingLE _).countP_eq _)

/-- C9: the `Count` column counts rating entries, not distinct respondents:
for every row of the result table, `Count` is the total number of rating
entries naming that course over all respondents — so a respondent with
non-empty, non-`"Did not take"` entries for the same course in two
categories contributes two, not one. -/
theorem count_counts_entries (df : List Row) (col_map : ColMap)
    (course_type : String) (r : ResultRow)
    (hr : r ∈ process_rankings df col_map course_type) :
    r.count = (df.map (fun row =>
      (student_courses col_map course_type row).countP
        (fun s => s.course == r.course))).sum := by
  rw [process_rankings, List.mem_insertionSort] at hr
  rw [resultsOf_eq_keys_map (processRows_accInv df col_map course_type)] at hr
  obtain ⟨c, hc, heq⟩ := List.mem_map.mp hr
  subst heq
  show (accRanks (processRows df col_map course_type) c).length = _
  rw [processRows_accRanks, List.length_flatten, List.map_map]
  congr 1
  refine List.map_congr_left (fun row _ => ?_)
  show (rowRanksFor col_map course_type row c).length = _
  rw [rowRanksFor_length]
  rfl

/-- Witness for C9: one respondent rated course `X` as both
`Most Beneficial` and `Neutral`; the result table reports `X` with
`Count = 2` from that single respondent — the duplicate is double-counted,
not rejected. -/
theorem count_counts_entries_witness :
    (⟨"X", mkRat 3 2, 2⟩ : ResultRow) ∈
      process_rankings [dupCourseRow] dupCourseMap "CORE" ∧
    (⟨"X", mkRat 3 2, 2⟩ : ResultRow).count =
      ([dupCourseRow].map (fun row =>
        (student_courses dupCourseMap "CORE" row).countP
          (fun s => s.course ==
            (⟨"X", mkRat 3 2, 2⟩ : ResultRow).course))).sum :=
  ⟨by decide,
   count_counts_entries [dupCourseRow] dupCourseMap "CORE" _ (by decide)⟩

/-! ## The header parser and ambiguous matches -/

/-- C6 counterexample: a header in which two category labels both occur as
delimited segments (an ambiguous, multiple-match header) is not skipped:
`parse_columns` keeps it, guessing the first matching category of its fixed
search order. -/
theorem ambiguous_category_header_is_parsed :
    pyContains ambiguousHeader (catSegment "Most Beneficial") = true ∧
    pyContains ambiguousHeader (catSegment "Neutral") = true ∧
    parse_columns [ambiguousHeader] =
      [(ambiguousHeader, ⟨"CORE", "Most Beneficial", "Y"⟩)] := by
  decide

/-- C6 amended: a header with zero category matches is skipped (with a
diagnostic); but a header with several plausible category matches is not
skipped — the parser keeps it with the first matching category in the fixed
order `Most Beneficial`, `Neutral`, `Least Beneficial`, `Did not take`. -/
theorem category_match_first_wins (col : String) :
    (findCategory col = none → parseCol col = none) ∧
    (∀ m : ColMeta, parseCol col = some m →
      findCategory col = some m.category) := by
  constructor
  · intro hnone
    unfold parseCol
    cases hdt : detectType col
    · rfl
    · simp [hnone]
  · intro m hm
    unfold parseCol at hm
    cases hdt : detectType col
    · rw [hdt] at hm
      cases hm
    · rw [hdt] at hm
      by_cases hR : pyContains col " - Ranks - "
      · by_cases hE : pyEndsWith col " - Rank"
        · cases hfc : findCategory col
          · rw [hfc] at hm
            simp [hR, hE] at hm
          · rename_i found_cat
            rw [hfc] at hm
            simp only [hR, hE, Bool.not_true, Bool.false_eq_true,
              if_false] at hm
            by_cases hidx : (pyFind col (catSegment found_cat) +
                ((catSegment found_cat).length : Int) == -1 ||
                pyRFind col " - Rank" == -1)
            · simp [hidx] at hm
            · simp only [hidx, Bool.false_eq_true, if_false,
                Option.some.injEq] at hm
              rw [← hm]
        · simp [hR, hE] at hm
      · simp [hR] at hm

/-- Witness for C6 (amended): the unmatched header is dropped, and the
ambiguous header resolves to the first matching category,
`Most Beneficial`. -/
theorem category_match_first_wins_witness :
    parseCol unmatchedHeader = none ∧
    findCategory ambiguousHeader = some "Most Beneficial" :=
  ⟨(category_match_first_wins unmatchedHeader).1 (by decide),
   (category_match_first_wins ambiguousHeader).2
     ⟨"CORE", "Most Beneficial", "Y"⟩ (by decide)⟩

end MAccSurvey
